import Mathlib

/-!
Verification of the command-line option parsing module of this repository
(`src/option.cc`): the container `mp::OptionList` with its `Sort` and `Find`
operations, the free function `mp::ParseOptions`, and the message-formatting
helper `MakePrintable`.

Modelling conventions:
* A C `char` is modelled as a byte value (a `Nat`); flag characters are
  compared by their numeric value, as `OptionLess` compares `char`s.
* A C string is the list of its bytes before the NUL terminator; reading at
  or past the end of the list yields the terminator byte 0.
* A `char **` argument vector is the list of its strings before the null
  entry; the null entry itself is position `args.length`.
* `std::sort` and `std::lower_bound` are standard-library calls, modelled by
  their documented contracts (a sort ordered by the comparator, and the first
  position whose element is not less than the searched value).
* The side effects of the scan loop (dereferencing an argument, invoking a
  handler) are returned as an explicit event trace, and the C++ exception
  `OptionError` is an explicit `error` result recording the message and the
  position of the scan pointer when it was thrown.
-/

/-- The value of a C `char`, as a byte `0 ≤ c ≤ 255`. -/
abbrev CChar := Nat

/-- The bytes of a C string, up to but not including the NUL terminator.
Index 0 is read as `headD 0` and index 1 as `getD 1 0`, so reading the
terminator position yields byte 0 as in C. -/
abbrev CStr := List CChar

/-- The structure Option of `mp/option.h`: a flag character `name`, an opaque
caller-supplied `handler` context, and the dispatch function `on_option`,
which receives the handler and returns `true` to continue scanning. The
handler type is a parameter: the code only passes it through. -/
structure mp.Option (α : Type) where
  name : CChar
  handler : α
  on_option : α → Bool

/-- The container `mp::OptionList`: the sequence `options_` plus the
`sorted_` dirty flag. -/
structure mp.OptionList (α : Type) where
  options_ : List (mp.Option α)
  sorted_ : Bool

/-- The ordering induced by the comparator `OptionLess`: options compare by
flag character (`lhs.name < rhs.name`); sortedness with respect to it is
`a.name ≤ b.name` along the sequence. -/
def optLE {α : Type} (a b : mp.Option α) : Prop := a.name ≤ b.name

instance {α : Type} : DecidableRel (@optLE α) :=
  fun a b => inferInstanceAs (Decidable (a.name ≤ b.name))

instance {α : Type} : IsTotal (mp.Option α) optLE :=
  ⟨fun a b => Nat.le_total a.name b.name⟩

instance {α : Type} : IsTrans (mp.Option α) optLE :=
  ⟨fun _ _ _ => Nat.le_trans⟩

/-- The method `OptionList::Sort`: a no-op when the `sorted_` flag is already
set; otherwise `std::sort(options_.begin(), options_.end(), OptionLess())`,
modelled by a sorting algorithm (sorted output, a permutation of the input:
the contract of `std::sort`), after which the flag is set. -/
def mp.OptionList.Sort {α : Type} (l : mp.OptionList α) : mp.OptionList α :=
  if l.sorted_ then l
  else { options_ := l.options_.insertionSort optLE, sorted_ := true }

/-- Result type of `Find`, written at top level so that `Option` is the core
option type (a pointer that may be null), not `mp.Option`. -/
abbrev FindResult (α : Type) := Option (mp.Option α)

/-- The method `OptionList::Find`: `std::lower_bound` over the sequence with
`OptionLess` — modelled by its contract, the first position whose element is
not less than `name` — followed by the end-and-equality check
`it != options_.end() && it->name == name ? &*it : 0`. -/
def mp.OptionList.Find {α : Type} (l : mp.OptionList α) (name : CChar) :
    FindResult α :=
  match l.options_[l.options_.findIdx fun o => name ≤ o.name]? with
  | some o => if o.name = name then some o else none
  | none => none

/-- The function `std::isprint` in the C locale: exactly the bytes
`0x20 ≤ c ≤ 0x7e` are printable. -/
def isprint (c : CChar) : Bool := 32 ≤ c && c ≤ 126

/-- Rendering of the format spec `{:02d}` applied to a byte value: its
decimal digits, zero-padded on the left to width 2. -/
def pad2dec (n : Nat) : String := if n < 10 then "0" ++ toString n else toString n

/-- The helper `MakePrintable` of `option.cc`: a printable character is
rendered literally as a one-character string; any other byte is rendered as
`fmt::format("\\x{:02d}", c)` — a backslash, an `x`, and the two-digit
zero-padded DECIMAL value of the byte (the format spec says `d`, not `x`). -/
def MakePrintable (c : CChar) : String :=
  if isprint c then String.mk [Char.ofNat c] else "\\x" ++ pad2dec c

/-- The message built by `ParseOptions` when flag `c` has no registered
option. -/
def invalidOptionMsg (c : CChar) : String :=
  "invalid option '-" ++ MakePrintable c ++ "'"

/-- Outcome of the `ParseOptions` scan. `ok i` is a normal return of the
pointer `args + i` (index `args.length` being the null-terminator position);
`error i msg` is the exception `OptionError(msg)` thrown while the scan
pointer stood at argument `i`. -/
inductive ScanResult where
  | ok (idx : Nat)
  | error (idx : Nat) (msg : String)
deriving DecidableEq

/-- The argument index a `ScanResult` refers to: the returned pointer offset
for `ok`, the scan-pointer position at the throw for `error`. -/
def ScanResult.index : ScanResult → Nat
  | .ok i => i
  | .error i _ => i

/-- Observable events of the scan loop, in order. `examined i` records the
loop iteration that dereferenced the non-null argument `i`; `invoked i c`
records the call `opt->on_option(opt->handler)` made for flag `c` while at
argument `i`. -/
inductive ScanEvent where
  | examined (idx : Nat)
  | invoked (idx : Nat) (name : CChar)
deriving DecidableEq

/-- The argument index a `ScanEvent` happened at. -/
def ScanEvent.index : ScanEvent → Nat
  | .examined i => i
  | .invoked i _ => i

/-- The scan loop of `mp::ParseOptions`.  The first list argument is the
still-unvisited suffix of the argument vector and `i` is the offset of the
scan pointer `arg_ptr` from the base (so the suffix starts at absolute
position `i`).  Mirrors the `for (; *arg_ptr; ++arg_ptr)` loop: the null
entry at the end of the vector ends the loop normally; an argument not
starting with a dash (byte 45) breaks; an unregistered flag throws; a
handler answering `false` breaks.  A `break` leaves the loop WITHOUT running
the `++arg_ptr` increment, so both `break`s return the index of the current
argument. -/
def mp.parseFrom {α : Type} (l : mp.OptionList α) :
    List CStr → Nat → ScanResult × List ScanEvent
  | [], i => (.ok i, [])
  | arg :: rest, i =>
    if arg.headD 0 = 45 then
      match l.Find (arg.getD 1 0) with
      | none => (.error i (invalidOptionMsg (arg.getD 1 0)), [.examined i])
      | some opt =>
        if opt.on_option opt.handler then
          let r := mp.parseFrom l rest (i + 1)
          (r.1, .examined i :: .invoked i (arg.getD 1 0) :: r.2)
        else
          (.ok i, [.examined i, .invoked i (arg.getD 1 0)])
    else (.ok i, [.examined i])

/-- The free function `mp::ParseOptions(args, options)`: sort the list, then
scan from the first argument.  Returns the scan result, the event trace, and
the list as the call leaves it (sorting is the only mutation the function
performs on it). -/
def mp.ParseOptions {α : Type} (args : List CStr) (options : mp.OptionList α) :
    ScanResult × List ScanEvent × mp.OptionList α :=
  let l := options.Sort
  let r := mp.parseFrom l args 0
  (r.1, r.2, l)

/-- Modelled from the spec: the class invariant of `mp::OptionList`
maintained by the insertion method declared in `mp/option.h` (a header this
repository's `src/` does not contain): whenever the `sorted_` dirty flag is
set, the sequence really is ordered by flag character.  A freshly populated
list has the flag clear and satisfies this vacuously. -/
def mp.OptionList.WF {α : Type} (l : mp.OptionList α) : Prop :=
  l.sorted_ = true → l.options_.Pairwise optLE

/-- The scan continues past position `k` of the vector `args`: the argument
exists, starts with a dash, its flag has a registered option, and the
option's handler answers `true`. -/
def continuesAt {α : Type} (l : mp.OptionList α) (args : List CStr) (k : Nat) : Prop :=
  ∃ arg opt, args[k]? = some arg ∧ arg.headD 0 = 45 ∧
    l.Find (arg.getD 1 0) = some opt ∧ opt.on_option opt.handler = true

/-- Position `k` of the vector `args` makes the scan throw: the argument
exists, starts with a dash, and its flag has no registered option. -/
def errAt {α : Type} (l : mp.OptionList α) (args : List CStr) (k : Nat) : Prop :=
  ∃ arg, args[k]? = some arg ∧ arg.headD 0 = 45 ∧ l.Find (arg.getD 1 0) = none

/-- Position `k` of the vector `args` stops the scan through its handler:
the argument exists, starts with a dash, its flag is registered, and the
handler answers `false`. -/
def stopsAt {α : Type} (l : mp.OptionList α) (args : List CStr) (k : Nat) : Prop :=
  ∃ arg opt, args[k]? = some arg ∧ arg.headD 0 = 45 ∧
    l.Find (arg.getD 1 0) = some opt ∧ opt.on_option opt.handler = false

/-- Position `k` of the vector `args` holds an argument that does not start
with a dash. -/
def nonFlagAt (args : List CStr) (k : Nat) : Prop :=
  ∃ arg, args[k]? = some arg ∧ arg.headD 0 ≠ 45

/-! ### Basic facts about `Sort` -/

/-- Sorting permutes the sequence. -/
theorem Sort_perm {α : Type} (l : mp.OptionList α) :
    ((l.Sort).options_).Perm l.options_ := by
  unfold mp.OptionList.Sort
  split
  · exact List.Perm.refl _
  · exact List.perm_insertionSort _ _

/-- After `Sort`, the sequence is ordered by flag character (for a list
satisfying the class invariant). -/
theorem Sort_sorted {α : Type} {l : mp.OptionList α} (hWF : l.WF) :
    ((l.Sort).options_).Pairwise optLE := by
  unfold mp.OptionList.Sort
  split
  · exact hWF (by assumption)
  · exact List.sorted_insertionSort optLE l.options_

/-- After `Sort`, the dirty flag is set. -/
theorem Sort_flag {α : Type} (l : mp.OptionList α) : (l.Sort).sorted_ = true := by
  unfold mp.OptionList.Sort
  split
  · assumption
  · rfl

/-- With the dirty flag already set, `Sort` is the identity (the early
`return`). -/
theorem Sort_of_flag {α : Type} {l : mp.OptionList α} (h : l.sorted_ = true) :
    l.Sort = l := by
  unfold mp.OptionList.Sort
  rw [if_pos h]

/-- On a sequence that is already ordered, sorting leaves the sequence
unchanged. -/
theorem Sort_of_sorted_seq {α : Type} {l : mp.OptionList α}
    (h : l.options_.Pairwise optLE) : (l.Sort).options_ = l.options_ := by
  unfold mp.OptionList.Sort
  split
  · rfl
  · exact List.Sorted.insertionSort_eq h

/-! ### Basic facts about `Find` -/

/-- A found option is an element of the sequence and has the searched
name. -/
theorem Find_mem {α : Type} {l : mp.OptionList α} {c : CChar} {o : mp.Option α}
    (h : l.Find c = some o) : o ∈ l.options_ ∧ o.name = c := by
  unfold mp.OptionList.Find at h
  split at h
  next o' hg =>
    split at h
    next he => cases h; exact ⟨List.getElem?_mem hg, he⟩
    next => cases h
  next => cases h

/-- When no option carries the searched name, `Find` returns the null
pointer (no sortedness needed: the final equality check fails). -/
theorem Find_eq_none {α : Type} {l : mp.OptionList α} {c : CChar}
    (h : ∀ o ∈ l.options_, o.name ≠ c) : l.Find c = none := by
  unfold mp.OptionList.Find
  split
  next o' hg => rw [if_neg (h o' (List.getElem?_mem hg))]
  next => rfl

/-- On a sequence ordered by flag character with pairwise-distinct names,
`Find` locates every element of the sequence. -/
theorem Find_eq_some_of_mem {α : Type} {l : mp.OptionList α} {o : mp.Option α}
    (hs : l.options_.Pairwise optLE)
    (hn : (l.options_.map fun o => o.name).Nodup)
    (hm : o ∈ l.options_) : l.Find o.name = some o := by
  have hex : ∃ x ∈ l.options_, (fun o' => decide (o.name ≤ o'.name)) x = true :=
    ⟨o, hm, by simp⟩
  have hilt := List.findIdx_lt_length_of_exists hex
  have hple : o.name ≤ (l.options_[l.options_.findIdx fun o' => decide (o.name ≤ o'.name)]).name := by
    have := List.findIdx_getElem (w := hilt)
    simpa using this
  obtain ⟨jo, hjo, hjoe⟩ := List.getElem_of_mem hm
  have hij : (l.options_.findIdx fun o' => decide (o.name ≤ o'.name)) ≤ jo := by
    by_contra hlt
    push_neg at hlt
    have := List.not_of_lt_findIdx hlt
    rw [hjoe] at this
    simp at this
  have hle2 : (l.options_[l.options_.findIdx fun o' => decide (o.name ≤ o'.name)]).name ≤ o.name := by
    rcases Nat.eq_or_lt_of_le hij with heq | hlt
    · have h1 : l.options_[l.options_.findIdx fun o' => decide (o.name ≤ o'.name)]? =
          l.options_[jo]? := by rw [heq]
      rw [List.getElem?_eq_getElem hilt, List.getElem?_eq_getElem hjo] at h1
      rw [Option.some.inj h1, hjoe]
    · have := (List.pairwise_iff_getElem.mp hs) _ jo hilt hjo hlt
      rw [hjoe] at this
      exact this
  have hname : (l.options_[l.options_.findIdx fun o' => decide (o.name ≤ o'.name)]).name = o.name :=
    Nat.le_antisymm hle2 hple
  have heqo : l.options_[l.options_.findIdx fun o' => decide (o.name ≤ o'.name)] = o :=
    List.inj_on_of_nodup_map hn (List.getElem_mem hilt) hm hname
  unfold mp.OptionList.Find
  rw [List.getElem?_eq_getElem hilt]
  simp [heqo]

/-! ### Shifting the scan predicates across the head of the vector -/

theorem continuesAt_cons {α : Type} {l : mp.OptionList α} {a : CStr}
    {rest : List CStr} {e : Nat} :
    continuesAt l rest e ↔ continuesAt l (a :: rest) (e + 1) := by
  unfold continuesAt
  simp [List.getElem?_cons_succ]

theorem errAt_cons {α : Type} {l : mp.OptionList α} {a : CStr}
    {rest : List CStr} {e : Nat} :
    errAt l rest e ↔ errAt l (a :: rest) (e + 1) := by
  unfold errAt
  simp [List.getElem?_cons_succ]

theorem stopsAt_cons {α : Type} {l : mp.OptionList α} {a : CStr}
    {rest : List CStr} {e : Nat} :
    stopsAt l rest e ↔ stopsAt l (a :: rest) (e + 1) := by
  unfold stopsAt
  simp [List.getElem?_cons_succ]

theorem nonFlagAt_cons {a : CStr} {rest : List CStr} {e : Nat} :
    nonFlagAt rest e ↔ nonFlagAt (a :: rest) (e + 1) := by
  unfold nonFlagAt
  simp [List.getElem?_cons_succ]


/-! ### One-step equations for the scan loop -/

theorem parseFrom_nil {α : Type} (l : mp.OptionList α) (i : Nat) :
    mp.parseFrom l [] i = (.ok i, []) := rfl

theorem parseFrom_cons_nonflag {α : Type} (l : mp.OptionList α) {arg : CStr}
    (rest : List CStr) (i : Nat) (hd : arg.headD 0 ≠ 45) :
    mp.parseFrom l (arg :: rest) i = (.ok i, [.examined i]) := by
  simp only [mp.parseFrom]
  rw [if_neg hd]

theorem parseFrom_cons_err {α : Type} (l : mp.OptionList α) {arg : CStr}
    (rest : List CStr) (i : Nat) (hd : arg.headD 0 = 45)
    (hf : l.Find (arg.getD 1 0) = none) :
    mp.parseFrom l (arg :: rest) i =
      (.error i (invalidOptionMsg (arg.getD 1 0)), [.examined i]) := by
  simp only [mp.parseFrom]
  rw [if_pos hd, hf]

theorem parseFrom_cons_stop {α : Type} (l : mp.OptionList α) {arg : CStr}
    {opt : mp.Option α} (rest : List CStr) (i : Nat) (hd : arg.headD 0 = 45)
    (hf : l.Find (arg.getD 1 0) = some opt)
    (hb : opt.on_option opt.handler = false) :
    mp.parseFrom l (arg :: rest) i =
      (.ok i, [.examined i, .invoked i (arg.getD 1 0)]) := by
  simp only [mp.parseFrom]
  rw [if_pos hd, hf]
  simp [hb]

theorem parseFrom_cons_cont {α : Type} (l : mp.OptionList α) {arg : CStr}
    {opt : mp.Option α} (rest : List CStr) (i : Nat) (hd : arg.headD 0 = 45)
    (hf : l.Find (arg.getD 1 0) = some opt)
    (hb : opt.on_option opt.handler = true) :
    mp.parseFrom l (arg :: rest) i =
      ((mp.parseFrom l rest (i + 1)).1,
        .examined i :: .invoked i (arg.getD 1 0) :: (mp.parseFrom l rest (i + 1)).2) := by
  simp only [mp.parseFrom]
  rw [if_pos hd, hf]
  simp [hb]

/-! ### Behaviour of the scan loop -/

/-- The scan pointer never moves backwards: the index the result refers to
is at least the starting index. -/
theorem parseFrom_index_ge {α : Type} (l : mp.OptionList α) :
    ∀ (rest : List CStr) (i : Nat), i ≤ ((mp.parseFrom l rest i).1).index := by
  intro rest
  induction rest with
  | nil => intro i; rw [parseFrom_nil]; exact Nat.le_refl i
  | cons arg rest ih =>
    intro i
    by_cases hd : arg.headD 0 = 45
    · cases hf : l.Find (arg.getD 1 0) with
      | none => rw [parseFrom_cons_err l rest i hd hf]; exact Nat.le_refl i
      | some opt =>
        cases hb : opt.on_option opt.handler with
        | false => rw [parseFrom_cons_stop l rest i hd hf hb]; exact Nat.le_refl i
        | true =>
          rw [parseFrom_cons_cont l rest i hd hf hb]
          exact Nat.le_trans (Nat.le_succ i) (ih (i + 1))
    · rw [parseFrom_cons_nonflag l rest i hd]; exact Nat.le_refl i

/-- Every event of the scan happens between the starting index and the index
the result refers to. -/
theorem parseFrom_event_bounds {α : Type} (l : mp.OptionList α) :
    ∀ (rest : List CStr) (i : Nat) (e : ScanEvent),
      e ∈ (mp.parseFrom l rest i).2 →
      i ≤ e.index ∧ e.index ≤ ((mp.parseFrom l rest i).1).index := by
  intro rest
  induction rest with
  | nil => intro i e he; rw [parseFrom_nil] at he; simp at he
  | cons arg rest ih =>
    intro i e he
    by_cases hd : arg.headD 0 = 45
    · cases hf : l.Find (arg.getD 1 0) with
      | none =>
        rw [parseFrom_cons_err l rest i hd hf] at he ⊢
        simp at he
        subst he
        exact ⟨Nat.le_refl i, Nat.le_refl i⟩
      | some opt =>
        cases hb : opt.on_option opt.handler with
        | false =>
          rw [parseFrom_cons_stop l rest i hd hf hb] at he ⊢
          simp at he
          rcases he with he | he <;> subst he <;> exact ⟨Nat.le_refl i, Nat.le_refl i⟩
        | true =>
          rw [parseFrom_cons_cont l rest i hd hf hb] at he ⊢
          have hge := parseFrom_index_ge l rest (i + 1)
          simp only [List.mem_cons] at he
          rcases he with he | he | he
          · subst he
            exact ⟨Nat.le_refl i, Nat.le_trans (Nat.le_succ i) hge⟩
          · subst he
            exact ⟨Nat.le_refl i, Nat.le_trans (Nat.le_succ i) hge⟩
          · have h2 := ih (i + 1) e he
            exact ⟨Nat.le_trans (Nat.le_succ i) h2.1, h2.2⟩
    · rw [parseFrom_cons_nonflag l rest i hd] at he ⊢
      simp at he
      subst he
      exact ⟨Nat.le_refl i, Nat.le_refl i⟩

/-- Every handler invocation recorded by the scan is justified: it happened
at an argument of the vector that starts with a dash and whose flag is
registered. -/
theorem parseFrom_invoked_elim {α : Type} (l : mp.OptionList α) :
    ∀ (rest : List CStr) (i k : Nat) (c : CChar),
      ScanEvent.invoked k c ∈ (mp.parseFrom l rest i).2 →
      ∃ d arg opt, k = i + d ∧ rest[d]? = some arg ∧ arg.headD 0 = 45 ∧
        arg.getD 1 0 = c ∧ l.Find c = some opt := by
  intro rest
  induction rest with
  | nil => intro i k c he; rw [parseFrom_nil] at he; simp at he
  | cons arg rest ih =>
    intro i k c he
    by_cases hd : arg.headD 0 = 45
    · cases hf : l.Find (arg.getD 1 0) with
      | none =>
        rw [parseFrom_cons_err l rest i hd hf] at he
        simp at he
      | some opt =>
        cases hb : opt.on_option opt.handler with
        | false =>
          rw [parseFrom_cons_stop l rest i hd hf hb] at he
          simp at he
          obtain ⟨hk, hc⟩ := he
          subst hk
          subst hc
          exact ⟨0, arg, opt, by omega, by simp, hd, by simp, by simpa using hf⟩
        | true =>
          rw [parseFrom_cons_cont l rest i hd hf hb] at he
          simp only [List.mem_cons] at he
          rcases he with he | he | he
          · simp at he
          · simp only [ScanEvent.invoked.injEq] at he
            obtain ⟨hk, hc⟩ := he
            subst hk
            subst hc
            exact ⟨0, arg, opt, by omega, by simp, hd, rfl, hf⟩

          · obtain ⟨d, arg', opt', hk, hg, hd', hc', hf'⟩ := ih (i + 1) k c he
            exact ⟨d + 1, arg', opt', by omega, by simpa using hg, hd', hc', hf'⟩
    · rw [parseFrom_cons_nonflag l rest i hd] at he
      simp at he

/-- When the scan throws, every handler invocation it made was at an
argument strictly before the failing one. -/
theorem parseFrom_error_invoked_lt {α : Type} (l : mp.OptionList α) :
    ∀ (rest : List CStr) (i j k : Nat) (m : String) (c : CChar),
      ((mp.parseFrom l rest i).1) = .error j m →
      ScanEvent.invoked k c ∈ (mp.parseFrom l rest i).2 → k < j := by
  intro rest
  induction rest with
  | nil => intro i j k m c h he; rw [parseFrom_nil] at h; simp at h
  | cons arg rest ih =>
    intro i j k m c h he
    by_cases hd : arg.headD 0 = 45
    · cases hf : l.Find (arg.getD 1 0) with
      | none =>
        rw [parseFrom_cons_err l rest i hd hf] at he
        simp at he
      | some opt =>
        cases hb : opt.on_option opt.handler with
        | false =>
          rw [parseFrom_cons_stop l rest i hd hf hb] at h
          simp at h
        | true =>
          rw [parseFrom_cons_cont l rest i hd hf hb] at h he
          have hge := parseFrom_index_ge l rest (i + 1)
          rw [h] at hge
          simp only [ScanResult.index] at hge
          simp only [List.mem_cons] at he
          rcases he with he | he | he
          · simp at he
          · simp only [ScanEvent.invoked.injEq] at he
            omega
          · exact ih (i + 1) j k m c h he
    · rw [parseFrom_cons_nonflag l rest i hd] at h
      simp at h

/-- Inversion of a throwing scan: the failing position carries a dash
argument with an unregistered flag, the message embeds that flag, and every
position before it let the scan continue. -/
theorem parseFrom_error_elim {α : Type} (l : mp.OptionList α) :
    ∀ (rest : List CStr) (i j : Nat) (m : String),
      ((mp.parseFrom l rest i).1) = .error j m →
      ∃ d arg, j = i + d ∧ rest[d]? = some arg ∧ arg.headD 0 = 45 ∧
        l.Find (arg.getD 1 0) = none ∧ m = invalidOptionMsg (arg.getD 1 0) ∧
        ∀ e < d, continuesAt l rest e := by
  intro rest
  induction rest with
  | nil => intro i j m h; rw [parseFrom_nil] at h; simp at h
  | cons arg rest ih =>
    intro i j m h
    by_cases hd : arg.headD 0 = 45
    · cases hf : l.Find (arg.getD 1 0) with
      | none =>
        rw [parseFrom_cons_err l rest i hd hf] at h
        simp only [ScanResult.error.injEq] at h
        obtain ⟨hj, hm⟩ := h
        exact ⟨0, arg, by omega, by simp, hd, hf, hm.symm,
          fun e he => absurd he (by omega)⟩
      | some opt =>
        cases hb : opt.on_option opt.handler with
        | false =>
          rw [parseFrom_cons_stop l rest i hd hf hb] at h
          simp at h
        | true =>
          rw [parseFrom_cons_cont l rest i hd hf hb] at h
          obtain ⟨d, arg', hj, hg, hd', hf', hm, hcont⟩ := ih (i + 1) j m h
          refine ⟨d + 1, arg', by omega, by simpa using hg, hd', hf', hm, ?_⟩
          intro e he
          cases e with
          | zero => exact ⟨arg, opt, by simp, hd, hf, hb⟩
          | succ e' => exact continuesAt_cons.mp (hcont e' (by omega))
    · rw [parseFrom_cons_nonflag l rest i hd] at h
      simp at h

/-- Construction of a throwing scan: if every position before `d` lets the
scan continue and position `d` holds a dash argument with an unregistered
flag, the scan started at index `i` throws at index `i + d` with the
invalid-option message for that flag. -/
theorem parseFrom_error_intro {α : Type} (l : mp.OptionList α) :
    ∀ (d : Nat) (rest : List CStr) (i : Nat) (arg : CStr),
      (∀ e < d, continuesAt l rest e) → rest[d]? = some arg →
      arg.headD 0 = 45 → l.Find (arg.getD 1 0) = none →
      (mp.parseFrom l rest i).1 = .error (i + d) (invalidOptionMsg (arg.getD 1 0)) := by
  intro d
  induction d with
  | zero =>
    intro rest i arg hcont hg hd hf
    cases rest with
    | nil => simp at hg
    | cons a rest' =>
      simp at hg
      subst hg
      rw [parseFrom_cons_err l rest' i hd hf, Nat.add_zero]
  | succ d ih =>
    intro rest i arg hcont hg hd hf
    obtain ⟨a0, opt, hg0, hd0, hf0, hb0⟩ := hcont 0 (Nat.succ_pos d)
    cases rest with
    | nil => simp at hg0
    | cons a rest' =>
      simp at hg0
      subst hg0
      rw [parseFrom_cons_cont l rest' i hd0 hf0 hb0]
      have hrec := ih rest' (i + 1) arg
        (fun e he => continuesAt_cons.mpr (hcont (e + 1) (by omega)))
        (by simpa using hg) hd hf
      have hidx : i + 1 + d = i + (d + 1) := by omega
      rw [hidx] at hrec
      exact hrec

/-- Inversion of a normally returning scan: the returned index is the start
plus the number of continuing positions, every position before it let the
scan continue, and the scan stopped there for one of the three normal
reasons — null terminator, non-dash argument, or a handler answering
`false`. -/
theorem parseFrom_ok_elim {α : Type} (l : mp.OptionList α) :
    ∀ (rest : List CStr) (i j : Nat),
      ((mp.parseFrom l rest i).1) = .ok j →
      ∃ d, j = i + d ∧ (∀ e < d, continuesAt l rest e) ∧
        (rest[d]? = none ∨ nonFlagAt rest d ∨ stopsAt l rest d) := by
  intro rest
  induction rest with
  | nil =>
    intro i j h
    rw [parseFrom_nil] at h
    simp only [ScanResult.ok.injEq] at h
    exact ⟨0, by omega, fun e he => absurd he (by omega), Or.inl (by simp)⟩
  | cons arg rest ih =>
    intro i j h
    by_cases hd : arg.headD 0 = 45
    · cases hf : l.Find (arg.getD 1 0) with
      | none =>
        rw [parseFrom_cons_err l rest i hd hf] at h
        simp at h
      | some opt =>
        cases hb : opt.on_option opt.handler with
        | false =>
          rw [parseFrom_cons_stop l rest i hd hf hb] at h
          simp only [ScanResult.ok.injEq] at h
          exact ⟨0, by omega, fun e he => absurd he (by omega),
            Or.inr (Or.inr ⟨arg, opt, by simp, hd, hf, hb⟩)⟩
        | true =>
          rw [parseFrom_cons_cont l rest i hd hf hb] at h
          obtain ⟨d, hj, hcont, hstop⟩ := ih (i + 1) j h
          refine ⟨d + 1, by omega, ?_, ?_⟩
          · intro e he
            cases e with
            | zero => exact ⟨arg, opt, by simp, hd, hf, hb⟩
            | succ e' => exact continuesAt_cons.mp (hcont e' (by omega))
          · rcases hstop with hstop | hstop | hstop
            · exact Or.inl (by simpa using hstop)
            · exact Or.inr (Or.inl (nonFlagAt_cons.mp hstop))
            · exact Or.inr (Or.inr (stopsAt_cons.mp hstop))
    · rw [parseFrom_cons_nonflag l rest i hd] at h
      simp only [ScanResult.ok.injEq] at h
      exact ⟨0, by omega, fun e he => absurd he (by omega),
        Or.inr (Or.inl ⟨arg, by simp, hd⟩)⟩

/-- Construction of a handler-stopped scan: if every position before `d`
lets the scan continue and the handler at position `d` answers `false`, the
scan started at index `i` returns the pointer to index `i + d` — the
argument whose handler stopped it, because the `break` skips the
increment. -/
theorem parseFrom_stop_intro {α : Type} (l : mp.OptionList α) :
    ∀ (d : Nat) (rest : List CStr) (i : Nat),
      (∀ e < d, continuesAt l rest e) → stopsAt l rest d →
      (mp.parseFrom l rest i).1 = .ok (i + d) := by
  intro d
  induction d with
  | zero =>
    intro rest i hcont hstop
    obtain ⟨arg, opt, hg, hd, hf, hb⟩ := hstop
    cases rest with
    | nil => simp at hg
    | cons a rest' =>
      simp at hg
      subst hg
      rw [parseFrom_cons_stop l rest' i hd hf hb, Nat.add_zero]
  | succ d ih =>
    intro rest i hcont hstop
    obtain ⟨a0, opt, hg0, hd0, hf0, hb0⟩ := hcont 0 (Nat.succ_pos d)
    cases rest with
    | nil => simp at hg0
    | cons a rest' =>
      simp at hg0
      subst hg0
      rw [parseFrom_cons_cont l rest' i hd0 hf0 hb0]
      have hrec := ih rest' (i + 1)
        (fun e he => continuesAt_cons.mpr (hcont (e + 1) (by omega)))
        (stopsAt_cons.mpr hstop)
      have hidx : i + 1 + d = i + (d + 1) := by omega
      rw [hidx] at hrec
      exact hrec

/-- The scan reads only the first byte and the byte after the dash of each
argument: two vectors of the same length agreeing on those two bytes
everywhere are scanned identically (same result, same events). -/
theorem parseFrom_cong {α : Type} (l : mp.OptionList α) :
    ∀ (rest rest' : List CStr) (i : Nat),
      rest.length = rest'.length →
      (∀ k, (rest.getD k []).headD 0 = (rest'.getD k []).headD 0 ∧
            (rest.getD k []).getD 1 0 = (rest'.getD k []).getD 1 0) →
      mp.parseFrom l rest i = mp.parseFrom l rest' i := by
  intro rest
  induction rest with
  | nil =>
    intro rest' i hlen hpt
    cases rest' with
    | nil => rfl
    | cons a r => simp at hlen
  | cons arg rest ih =>
    intro rest' i hlen hpt
    cases rest' with
    | nil => simp at hlen
    | cons arg' rest'' =>
      obtain ⟨hh, hg⟩ := hpt 0
      simp only [List.getD_cons_zero] at hh hg
      have hlen' : rest.length = rest''.length := by simpa using hlen
      have hpt' : ∀ k, (rest.getD k []).headD 0 = (rest''.getD k []).headD 0 ∧
          (rest.getD k []).getD 1 0 = (rest''.getD k []).getD 1 0 := by
        intro k
        have := hpt (k + 1)
        simpa only [List.getD_cons_succ] using this
      by_cases hd : arg.headD 0 = 45
      · have hd' : arg'.headD 0 = 45 := by rw [← hh]; exact hd
        cases hf : l.Find (arg.getD 1 0) with
        | none =>
          have hf' : l.Find (arg'.getD 1 0) = none := by rw [← hg]; exact hf
          rw [parseFrom_cons_err l rest i hd hf, parseFrom_cons_err l rest'' i hd' hf', hg]
        | some opt =>
          cases hb : opt.on_option opt.handler with
          | false =>
            have hf' : l.Find (arg'.getD 1 0) = some opt := by rw [← hg]; exact hf
            rw [parseFrom_cons_stop l rest i hd hf hb,
              parseFrom_cons_stop l rest'' i hd' hf' hb, hg]
          | true =>
            have hf' : l.Find (arg'.getD 1 0) = some opt := by rw [← hg]; exact hf
            rw [parseFrom_cons_cont l rest i hd hf hb,
              parseFrom_cons_cont l rest'' i hd' hf' hb, hg,
              ih rest'' (i + 1) hlen' hpt']
      · have hd' : ¬ arg'.headD 0 = 45 := by rw [← hh]; exact hd
        rw [parseFrom_cons_nonflag l rest i hd, parseFrom_cons_nonflag l rest'' i hd']

/-! ### Concrete data for the scenarios of the specification -/

/-- Option with flag `v` (byte 118) whose handler continues the scan. -/
def optV : mp.Option Unit := ⟨118, (), fun _ => true⟩

/-- Option with flag `q` (byte 113) whose handler stops the scan. -/
def optQ : mp.Option Unit := ⟨113, (), fun _ => false⟩

/-- Freshly populated list holding only `v`. -/
def listV : mp.OptionList Unit := ⟨[optV], false⟩

/-- Freshly populated list holding `v` then `q` (unsorted insertion order). -/
def listVQ : mp.OptionList Unit := ⟨[optV, optQ], false⟩

/-- The empty option list. -/
def listEmpty : mp.OptionList Unit := ⟨[], false⟩

/-- A list whose dirty flag is already set. -/
def sortedV : mp.OptionList Unit := ⟨[optV], true⟩

/-- Scenario A vector: `-v`, `-x`. -/
def argsA : List CStr := [[45, 118], [45, 120]]

/-- Scenario B vector: `-v`, `-q`, `file.txt`. -/
def argsB : List CStr := [[45, 118], [45, 113], [102, 105, 108, 101, 46, 116, 120, 116]]

/-- Scenario C vector: `foo`, `-v`. -/
def argsC : List CStr := [[102, 111, 111], [45, 118]]

/-- Scenario D vector: `-z`. -/
def argsD : List CStr := [[45, 122]]

/-! ### The claims -/

/-- C2: the code at the failing input byte 10 — `MakePrintable` renders the
non-printable byte 10 with DECIMAL digits as `\x10` (the format spec
`{:02d}` says decimal), not as the two-digit lowercase-hex escape `\x0a`
the specification requires; byte 1 happens to agree with the hex reading,
and printable bytes are rendered literally. -/
theorem C2_nonprintable_decimal_escape :
    MakePrintable 10 = "\\x10" ∧ MakePrintable 10 ≠ "\\x0a" ∧
    MakePrintable 1 = "\\x01" ∧ MakePrintable 122 = "z" := by
  refine ⟨rfl, ?_, rfl, rfl⟩
  decide

/-- C6: `Sort()` is idempotent — sorting an already-sorted list is the
identity, the dirty flag is set after any `Sort()`, and a set flag guards
`Sort()` into a no-op. -/
theorem C6_sort_idempotent {α : Type} (l : mp.OptionList α) :
    (l.Sort).Sort = l.Sort ∧ (l.Sort).sorted_ = true ∧
    (l.sorted_ = true → l.Sort = l) := by
  have hf := Sort_flag l
  exact ⟨Sort_of_flag hf, hf, fun h => Sort_of_flag h⟩

/-- Witness for C6 at a concrete sorted-flag list. -/
theorem C6_witness : sortedV.Sort = sortedV :=
  (C6_sort_idempotent sortedV).2.2 rfl

/-- C7: only the byte after the dash matters — two vectors of equal length
agreeing on the first and second byte of every argument parse identically,
so the trailing characters of `-abc` have no effect on lookup, handler
invocation, or errors. -/
theorem C7_ignores_trailing_chars {α : Type} (args args' : List CStr)
    (l : mp.OptionList α) (hlen : args.length = args'.length)
    (hpt : ∀ k, (args.getD k []).headD 0 = (args'.getD k []).headD 0 ∧
          (args.getD k []).getD 1 0 = (args'.getD k []).getD 1 0) :
    mp.ParseOptions args l = mp.ParseOptions args' l := by
  show (((mp.parseFrom l.Sort args 0).1, (mp.parseFrom l.Sort args 0).2, l.Sort) :
      ScanResult × List ScanEvent × mp.OptionList α) =
    ((mp.parseFrom l.Sort args' 0).1, (mp.parseFrom l.Sort args' 0).2, l.Sort)
  rw [parseFrom_cong l.Sort args args' 0 hlen hpt]

/-- Witness for C7: `-abc` is parsed exactly as `-a`. -/
theorem C7_witness :
    mp.ParseOptions [[45, 97, 98, 99]] listV = mp.ParseOptions [[45, 97]] listV :=
  C7_ignores_trailing_chars [[45, 97, 98, 99]] [[45, 97]] listV rfl
    (fun k => by
      cases k with
      | zero => exact ⟨rfl, rfl⟩
      | succ k => exact ⟨rfl, rfl⟩)

/-- C10: `ParseOptions` only sorts the list — afterwards the sequence is a
permutation of the one before, ordered by flag character, a list with the
dirty flag set is returned untouched, and an already-ordered sequence is
unchanged. -/
theorem C10_list_frame {α : Type} (args : List CStr) (l : mp.OptionList α)
    (hWF : l.WF) :
    (((mp.ParseOptions args l).2.2).options_).Perm l.options_ ∧
    (((mp.ParseOptions args l).2.2).options_).Pairwise optLE ∧
    (l.sorted_ = true → (mp.ParseOptions args l).2.2 = l) ∧
    (l.options_.Pairwise optLE →
      ((mp.ParseOptions args l).2.2).options_ = l.options_) := by
  exact ⟨Sort_perm l, Sort_sorted hWF, fun h => Sort_of_flag h,
    fun h => Sort_of_sorted_seq h⟩

/-- Witness for C10 at scenario B's list and vector. -/
theorem C10_witness :
    (((mp.ParseOptions argsB listVQ).2.2).options_).Perm listVQ.options_ ∧
    (((mp.ParseOptions argsB listVQ).2.2).options_).Pairwise optLE ∧
    (listVQ.sorted_ = true → (mp.ParseOptions argsB listVQ).2.2 = listVQ) ∧
    (listVQ.options_.Pairwise optLE →
      ((mp.ParseOptions argsB listVQ).2.2).options_ = listVQ.options_) :=
  C10_list_frame argsB listVQ (by intro h; cases h)

/-- C1 counterexample: in scenario B (`{v → true, q → false}`,
`[-v, -q, file.txt]`) the call returns the pointer to argument 1 — the
`-q` whose handler stopped the scan — and not the pointer to argument 2
(`file.txt`) required by the claim: the `break` leaves the `for` loop
before its `++arg_ptr` increment runs. -/
theorem C1_counterexample :
    (mp.ParseOptions argsB listVQ).1 = ScanResult.ok 1 ∧
    (mp.ParseOptions argsB listVQ).1 ≠ ScanResult.ok 2 := by
  refine ⟨rfl, ?_⟩
  intro h
  rw [show (mp.ParseOptions argsB listVQ).1 = ScanResult.ok 1 from rfl] at h
  simp at h

/-- C1 (amended): when a handler returns `false` at position `j` after the
scan continued through every earlier position, scanning halts immediately
and `ParseOptions` returns the pointer to the CURRENT argument (position
`j`), not the next one. -/
theorem C1_handler_stop_returns_current {α : Type} (args : List CStr)
    (l : mp.OptionList α) (j : Nat)
    (hcont : ∀ k < j, continuesAt l.Sort args k)
    (hstop : stopsAt l.Sort args j) :
    (mp.ParseOptions args l).1 = ScanResult.ok j := by
  have h := parseFrom_stop_intro l.Sort j args 0 hcont hstop
  rw [Nat.zero_add] at h
  exact h

/-- Witness for the amended C1 at scenario B: the result is the pointer to
`-q`, argument 1. -/
theorem C1_witness : (mp.ParseOptions argsB listVQ).1 = ScanResult.ok 1 :=
  C1_handler_stop_returns_current argsB listVQ 1
    (fun k hk => by
      have hk0 : k = 0 := by omega
      subst hk0
      exact ⟨[45, 118], optV, rfl, rfl, rfl, rfl⟩)
    ⟨[45, 113], optQ, rfl, rfl, rfl, rfl⟩

/-- C3: the scan throws `OptionError` exactly when, after continuing
through every earlier position, it meets an argument that starts with a
dash and whose flag character has no registered option; the message is
exactly `invalid option '-<c>'` with `<c>` the rendered flag. -/
theorem C3_invalid_option_error_iff {α : Type} (args : List CStr)
    (l : mp.OptionList α) :
    ((∃ j m, (mp.ParseOptions args l).1 = ScanResult.error j m) ↔
      (∃ j, (∀ k < j, continuesAt l.Sort args k) ∧ errAt l.Sort args j)) ∧
    (∀ j m, (mp.ParseOptions args l).1 = ScanResult.error j m →
      (∀ k < j, continuesAt l.Sort args k) ∧
      ∃ arg, args[j]? = some arg ∧ arg.headD 0 = 45 ∧
        l.Sort.Find (arg.getD 1 0) = none ∧
        m = invalidOptionMsg (arg.getD 1 0)) := by
  have hrepr : (mp.ParseOptions args l).1 = (mp.parseFrom l.Sort args 0).1 := rfl
  constructor
  · constructor
    · rintro ⟨j, m, h⟩
      rw [hrepr] at h
      obtain ⟨d, arg, hj, hg, hd, hf, hm, hcont⟩ := parseFrom_error_elim l.Sort args 0 j m h
      have hdj : d = j := by omega
      subst hdj
      exact ⟨d, fun k hk => hcont k hk, arg, hg, hd, hf⟩
    · rintro ⟨j, hcont, arg, hg, hd, hf⟩
      have h := parseFrom_error_intro l.Sort j args 0 arg hcont hg hd hf
      rw [Nat.zero_add] at h
      exact ⟨j, invalidOptionMsg (arg.getD 1 0), by rw [hrepr]; exact h⟩
  · intro j m h
    rw [hrepr] at h
    obtain ⟨d, arg, hj, hg, hd, hf, hm, hcont⟩ := parseFrom_error_elim l.Sort args 0 j m h
    have hdj : d = j := by omega
    subst hdj
    exact ⟨fun k hk => hcont k hk, arg, hg, hd, hf, hm⟩

/-- Witness for C3 at scenario D: with an empty option list and vector
`[-z]`, an `OptionError` is raised at argument 0 with message
`invalid option '-z'`. -/
theorem C3_witness :
    ∃ j m, (mp.ParseOptions argsD listEmpty).1 = ScanResult.error j m :=
  (C3_invalid_option_error_iff argsD listEmpty).1.mpr
    ⟨0, fun k hk => absurd hk (by omega), [45, 122], rfl, rfl, rfl⟩

/-- C8: once the scan throws at position `j`, no argument after `j` was
examined and no handler was invoked at `j` or later: every recorded event
is at an index at most `j`, and every handler invocation is strictly
before `j`. -/
theorem C8_error_aborts_scan {α : Type} (args : List CStr)
    (l : mp.OptionList α) (j : Nat) (m : String)
    (herr : (mp.ParseOptions args l).1 = ScanResult.error j m) :
    (∀ e ∈ (mp.ParseOptions args l).2.1, e.index ≤ j) ∧
    (∀ k c, ScanEvent.invoked k c ∈ (mp.ParseOptions args l).2.1 → k < j) := by
  have hrepr : (mp.ParseOptions args l).1 = (mp.parseFrom l.Sort args 0).1 := rfl
  have hrepr2 : (mp.ParseOptions args l).2.1 = (mp.parseFrom l.Sort args 0).2 := rfl
  rw [hrepr] at herr
  constructor
  · intro e he
    rw [hrepr2] at he
    have h := (parseFrom_event_bounds l.Sort args 0 e he).2
    rw [herr] at h
    exact h
  · intro k c hkc
    rw [hrepr2] at hkc
    exact parseFrom_error_invoked_lt l.Sort args 0 j k m c herr hkc

/-- Witness for C8 at scenario A: the throw happens at argument 1 (`-x`),
every event is at index at most 1 and every invocation strictly before
1. -/
theorem C8_witness :
    (∀ e ∈ (mp.ParseOptions argsA listV).2.1, e.index ≤ 1) ∧
    (∀ k c, ScanEvent.invoked k c ∈ (mp.ParseOptions argsA listV).2.1 → k < 1) :=
  C8_error_aborts_scan argsA listV 1 (invalidOptionMsg 120) rfl

/-- C9: a bare dash argument is read as the flag whose character is the NUL
byte (the terminator is taken as the flag name), looked up like any flag,
and — when no option is registered for byte 0 — makes the scan throw
`OptionError` instead of treating `-` as a non-flag or end-of-flags
marker. -/
theorem C9_bare_dash_nul_flag {α : Type} (args : List CStr)
    (l : mp.OptionList α) (j : Nat)
    (hcont : ∀ k < j, continuesAt l.Sort args k)
    (hg : args[j]? = some [45])
    (hnone : ∀ o ∈ l.options_, o.name ≠ 0) :
    (mp.ParseOptions args l).1 = ScanResult.error j (invalidOptionMsg 0) := by
  have hFind : l.Sort.Find 0 = none := by
    apply Find_eq_none
    intro o ho
    exact hnone o ((Sort_perm l).mem_iff.mp ho)
  have h := parseFrom_error_intro l.Sort j args 0 [45] hcont hg rfl hFind
  rw [Nat.zero_add] at h
  exact h

/-- Witness for C9: parsing `["-"]` against the list holding only `v`
throws at argument 0 with the NUL flag rendered in the message. -/
theorem C9_witness :
    (mp.ParseOptions [[45]] listV).1 = ScanResult.error 0 (invalidOptionMsg 0) :=
  C9_bare_dash_nul_flag [[45]] listV 0
    (fun k hk => absurd hk (by omega)) rfl
    (fun o ho => by
      rcases List.mem_cons.mp ho with h | h
      · subst h; decide
      · simp at h)

/-- C4: for a list with pairwise-distinct flag characters (inserted in any
order), after `Sort()` the sequence is strictly ascending by flag
character, `Find` locates the inserted option of every inserted flag, and
returns the null pointer for every character not inserted. -/
theorem C4_sorted_strict_and_find {α : Type} (l : mp.OptionList α)
    (hWF : l.WF) (hn : (l.options_.map fun o => o.name).Nodup) :
    ((l.Sort).options_).Pairwise (fun a b => a.name < b.name) ∧
    (∀ o ∈ l.options_, (l.Sort).Find o.name = some o) ∧
    (∀ c : CChar, (∀ o ∈ l.options_, o.name ≠ c) → (l.Sort).Find c = none) := by
  have hs := Sort_sorted hWF
  have hperm := Sort_perm l
  have hn' : (((l.Sort).options_).map fun o => o.name).Nodup :=
    ((hperm.map fun o => o.name).nodup_iff).mpr hn
  refine ⟨?_, ?_, ?_⟩
  · rw [List.pairwise_iff_getElem]
    intro i j hi hj hij
    have hle := (List.pairwise_iff_getElem.mp hs) i j hi hj hij
    have hne : (((l.Sort).options_)[i]).name ≠ (((l.Sort).options_)[j]).name := by
      intro he
      have hmi : i < (((l.Sort).options_).map fun o => o.name).length := by
        simpa using hi
      have hmj : j < (((l.Sort).options_).map fun o => o.name).length := by
        simpa using hj
      have hni : ((((l.Sort).options_).map fun o => o.name)[i]) =
          ((((l.Sort).options_).map fun o => o.name)[j]) := by
        simpa using he
      have := (hn'.getElem_inj_iff).mp hni
      omega
    exact Nat.lt_of_le_of_ne hle hne
  · intro o ho
    exact Find_eq_some_of_mem hs hn' (hperm.mem_iff.mpr ho)
  · intro c hc
    exact Find_eq_none fun o ho => hc o (hperm.mem_iff.mp ho)

/-- Witness for C4 at the two-element list inserted in descending-name
order. -/
theorem C4_witness :
    (((listVQ.Sort).options_).Pairwise fun a b => a.name < b.name) ∧
    (listVQ.Sort).Find 118 = some optV ∧ (listVQ.Sort).Find 122 = none := by
  have h := C4_sorted_strict_and_find listVQ (fun hf => by cases hf) (by decide)
  refine ⟨h.1, h.2.1 optV (by unfold listVQ; exact List.mem_cons_self _ _), ?_⟩
  apply h.2.2 122
  intro o ho
  rcases List.mem_cons.mp ho with h1 | h1
  · subst h1; decide
  · rcases List.mem_cons.mp h1 with h2 | h2
    · subst h2; decide
    · simp at h2

/-- C5: on a normal return where no handler stops the scan (every
registered handler answers `true`), the returned pointer designates the
first argument of the vector that does not begin with a dash — or the null
terminator when every argument is a consumed flag — and no handler is
invoked for that argument or any later one. -/
theorem C5_first_nonflag_return {α : Type} (args : List CStr)
    (l : mp.OptionList α) (j : Nat)
    (hall : ∀ o ∈ l.options_, o.on_option o.handler = true)
    (hok : (mp.ParseOptions args l).1 = ScanResult.ok j) :
    (j = args.findIdx fun arg => decide (arg.headD 0 ≠ 45)) ∧
    (∀ k c, ScanEvent.invoked k c ∈ (mp.ParseOptions args l).2.1 → k < j) := by
  have hrepr : (mp.ParseOptions args l).1 = (mp.parseFrom l.Sort args 0).1 := rfl
  have hrepr2 : (mp.ParseOptions args l).2.1 = (mp.parseFrom l.Sort args 0).2 := rfl
  rw [hrepr] at hok
  obtain ⟨d, hj, hcont, hstop⟩ := parseFrom_ok_elim l.Sort args 0 j hok
  have hdj : d = j := by omega
  subst hdj
  have hnostop : ¬ stopsAt l.Sort args d := by
    rintro ⟨arg, opt, hg, hd45, hf, hb⟩
    have hmem := Find_mem hf
    have hol : opt ∈ l.options_ := (Sort_perm l).mem_iff.mp hmem.1
    have htrue := hall opt hol
    rw [htrue] at hb
    cases hb
  have hex : ∀ e < d, e < args.length := by
    intro e he
    obtain ⟨arg, opt, hg, _⟩ := hcont e he
    by_contra hge
    push_neg at hge
    rw [List.getElem?_eq_none hge] at hg
    cases hg
  have hdash : ∀ e (he : e < d) (hel : e < args.length),
      ((args[e]).headD 0) = 45 := by
    intro e he hel
    obtain ⟨arg, opt, hg, hd45, _, _⟩ := hcont e he
    rw [List.getElem?_eq_getElem hel] at hg
    rw [Option.some.inj hg]
    exact hd45
  constructor
  · rcases hstop with hnone | hnf | hst
    · have hdlen : args.length ≤ d := by
        by_contra hlt
        push_neg at hlt
        rw [List.getElem?_eq_getElem hlt] at hnone
        cases hnone
      have hdlen2 : d ≤ args.length := by
        rcases Nat.eq_zero_or_pos d with h0 | hpos
        · omega
        · have := hex (d - 1) (by omega)
          omega
      have hdeq : d = args.length := by omega
      rw [hdeq]
      symm
      apply List.findIdx_eq_length_of_false
      intro x hx
      obtain ⟨e, hel, hxe⟩ := List.getElem_of_mem hx
      have h45 := hdash e (by omega) hel
      rw [hxe] at h45
      simp only [decide_eq_false_iff_not, List.headD_eq_head?_getD] at h45 ⊢
      simp [h45]
    · obtain ⟨arg, hg, hd45⟩ := hnf
      have hdl : d < args.length := by
        by_contra hge
        push_neg at hge
        rw [List.getElem?_eq_none hge] at hg
        cases hg
      have harg : args[d] = arg := by
        rw [List.getElem?_eq_getElem hdl] at hg
        exact Option.some.inj hg
      symm
      rw [List.findIdx_eq hdl]
      constructor
      · rw [harg]
        simp only [List.headD_eq_head?_getD] at hd45
        simp [hd45]
      · intro e he
        have h45 := hdash e he (by omega)
        simp only [List.headD_eq_head?_getD] at h45
        simp [h45]
    · exact absurd hst hnostop
  · intro k c hkc
    rw [hrepr2] at hkc
    have hbnd := (parseFrom_event_bounds l.Sort args 0 (ScanEvent.invoked k c) hkc).2
    rw [hok] at hbnd
    have hkd : k ≤ d := hbnd
    obtain ⟨d', arg, opt, hk, hg, hd45, hc, hf⟩ :=
      parseFrom_invoked_elim l.Sort args 0 k c hkc
    rcases Nat.lt_or_ge k d with hlt | hge
    · exact hlt
    · exfalso
      have hkd2 : k = d := by omega
      have hd'd : d' = d := by omega
      subst hd'd
      rcases hstop with hnone | hnf | hst
      · rw [hnone] at hg
        cases hg
      · obtain ⟨arg2, hg2, hd452⟩ := hnf
        rw [hg2] at hg
        have := Option.some.inj hg
        rw [← this] at hd45
        exact hd452 hd45
      · exact hnostop hst

/-- Witness for C5 at scenario C: the first argument `foo` has no dash, the
returned pointer is argument 0 and `v`'s handler is never invoked. -/
theorem C5_witness :
    (0 = argsC.findIdx fun arg => decide (arg.headD 0 ≠ 45)) ∧
    (∀ k c, ScanEvent.invoked k c ∈ (mp.ParseOptions argsC listV).2.1 → k < 0) :=
  C5_first_nonflag_return argsC listV 0
    (fun o ho => by
      rcases List.mem_cons.mp ho with h | h
      · subst h; rfl
      · simp at h)
    rfl
